import Mathlib

/-!
# Verification of the dual-momentum rotation backtester

A shallow embedding of `main.py`: the as-of date resolver (`get_closest_date`),
the multi-horizon momentum scorer (`calculate_momentum_scores`), and the
month-by-month trading simulator (`simulate_trading`), together with theorems
checking the specification's claims about them.

Modelling conventions:

* Dates are integers (`Date := Int`); the pandas month-offset arithmetic
  `date - pd.DateOffset(months=k)` is an external library capability and is
  passed in as a parameter `sub : Date → Nat → Date`.
* A ticker's price column is its list of `(date, cell)` pairs in index order;
  a cell `none` models a `NaN` entry of the joined DataFrame.
  `data[ticker].dropna().index` is then the list of dates whose cell is `some`.
* Python floats are modelled as exact rationals `ℚ`; the float power used for
  the annualized return is modelled by real exponentiation (`Real.rpow`),
  which is why `annual_return` alone is noncomputable.
* A pandas `KeyError` (in particular `data.loc[NaT, ticker]`, which is what
  `.loc` raises when `Index.asof` found no observation on or before the
  target and returned `NaT`) is modelled as `Except.error ()`; it aborts the
  run exactly as the uncaught exception does.
* Python's `max(xs, key=f)` keeps the first element attaining the maximum and
  raises on an empty list; `momentum_scores.get(x, -np.inf)` defaults to the
  bottom element of `WithBot ℚ`, which models `-np.inf`.
-/

namespace StockSimul

abbrev Date := Int

abbrev Ticker := String

/-- One ticker's price column: `(date, cell)` pairs; `none` is a NaN cell. -/
abbrev Series := List (Date × Option ℚ)

/-- `data[ticker].dropna().index`: the dates whose cell holds a value. -/
def dropnaDates (s : Series) : List Date :=
  s.filterMap (fun e => e.2.map (fun _ => e.1))

/-- `get_closest_date` (main.py lines 20-26): if the target date has an
observation return it, otherwise `dates.asof(date)` — the latest observation
date `≤ date`, or `none` (pandas `NaT`) when every observation is later. -/
def get_closest_date (s : Series) (d : Date) : Option Date :=
  let dates := dropnaDates s
  if d ∈ dates then some d
  else (dates.filter (fun c => decide (c ≤ d))).max?

/-- Row lookup at a date: the cell of the first entry carrying that date, or
`KeyError` when the date is absent from the index. -/
def locRow : Series → Date → Except Unit (Option ℚ)
  | [], _ => .error ()
  | e :: rest, d => if e.1 = d then .ok e.2 else locRow rest d

/-- `data.loc[closest_date, ticker]`: row lookup in the ticker's column.
`none` in place of a date is pandas `NaT`, on which `.loc` raises `KeyError`. -/
def locCell (s : Series) (od : Option Date) : Except Unit (Option ℚ) :=
  match od with
  | none => .error ()
  | some d => locRow s d

/-- The weighted multi-horizon momentum blend of main.py lines 48-51. -/
def momentumFormula (p0 p1 p3 p6 p12 : ℚ) : ℚ :=
  (p0 / p1 - 1) * 12 + (p0 / p3 - 1) * 4 + (p0 / p6 - 1) * 2 + (p0 / p12 - 1) * 1

/-- The per-ticker body of `calculate_momentum_scores` (main.py lines 32-53):
resolve the five as-of dates at offsets 0, 1, 3, 6, 12 months, look the five
prices up, give score `-np.inf` (here `⊥`) if any price is NaN, otherwise the
weighted momentum blend. -/
def tickerScore (sub : Date → Nat → Date) (s : Series) (d : Date) :
    Except Unit (WithBot ℚ) :=
  let c0 := get_closest_date s d
  let c1 := get_closest_date s (sub d 1)
  let c3 := get_closest_date s (sub d 3)
  let c6 := get_closest_date s (sub d 6)
  let c12 := get_closest_date s (sub d 12)
  match locCell s c0 with
  | .error err => .error err
  | .ok p0 =>
    match locCell s c1 with
    | .error err => .error err
    | .ok p1 =>
      match locCell s c3 with
      | .error err => .error err
      | .ok p3 =>
        match locCell s c6 with
        | .error err => .error err
        | .ok p6 =>
          match locCell s c12 with
          | .error err => .error err
          | .ok p12 =>
            match p0, p1, p3, p6, p12 with
            | some q0, some q1, some q3, some q6, some q12 =>
              .ok ↑(momentumFormula q0 q1 q3 q6 q12)
            | _, _, _, _, _ => .ok ⊥

/-- `calculate_momentum_scores` (main.py lines 28-54): one score per column,
in column order; the first uncaught lookup failure aborts the whole call. -/
def calculate_momentum_scores (sub : Date → Nat → Date)
    (data : List (Ticker × Series)) (d : Date) :
    Except Unit (List (Ticker × WithBot ℚ)) :=
  match data with
  | [] => .ok []
  | (t, s) :: rest =>
    match tickerScore sub s d with
    | .error err => .error err
    | .ok sc =>
      match calculate_momentum_scores sub rest d with
      | .error err => .error err
      | .ok tail => .ok ((t, sc) :: tail)

/-- `momentum_scores.get(x, -np.inf)` (main.py lines 74-75). -/
def dictGet (m : List (Ticker × WithBot ℚ)) (t : Ticker) : WithBot ℚ :=
  match m with
  | [] => ⊥
  | e :: rest => if e.1 = t then e.2 else dictGet rest t

/-- Python's `max(xs, key=key)`: raises on an empty list, otherwise folds
left keeping the current best and replacing it only on a strictly greater
key — so ties are won by the earliest element. -/
def pymax (key : Ticker → WithBot ℚ) : List Ticker → Except Unit Ticker
  | [] => .error ()
  | x :: xs => .ok (xs.foldl (fun b y => if key b < key y then y else b) x)

/-- The regime label of main.py lines 79/82 (`'안전자산 투자'` / `'공격형자산 투자'`). -/
inductive Strategy
  | safety
  | risk
deriving DecidableEq, Repr

/-- Lines 74-82: pick `best_attack` and `best_safe` by `max` over each
universe, then the regime test — if every attack score is `≤ 0` the target is
the best safe asset, otherwise the best attack asset. -/
def chooseAsset (scores : List (Ticker × WithBot ℚ)) (attack safe : List Ticker) :
    Except Unit (Ticker × Strategy) :=
  match pymax (dictGet scores) attack with
  | .error err => .error err
  | .ok best_attack =>
    match pymax (dictGet scores) safe with
    | .error err => .error err
    | .ok best_safe =>
      if attack.all (fun a => decide (dictGet scores a ≤ 0)) then
        .ok (best_safe, .safety)
      else
        .ok (best_attack, .risk)

/-- `data[ticker]` column access; tickers outside the frame get the empty
column (every lookup on it then fails, as the `KeyError` would). -/
def seriesOf (data : List (Ticker × Series)) (t : Ticker) : Series :=
  match data with
  | [] => []
  | e :: rest => if e.1 = t then e.2 else seriesOf rest t

/-- `data.loc[get_closest_date(data, ticker, date), ticker]` as used by the
trading phases (lines 87-88, 95-96, 102): resolve the as-of date, then read
the cell. A resolved date always carries a value when the index has no
duplicate dates; the degenerate NaN read is mapped to a failure. -/
def unitPriceAt (data : List (Ticker × Series)) (t : Ticker) (d : Date) :
    Except Unit ℚ :=
  match locCell (seriesOf data t) (get_closest_date (seriesOf data t) d) with
  | .error err => .error err
  | .ok none => .error ()
  | .ok (some p) => .ok p

/-- The liquidation loop (main.py lines 84-91): walk the portfolio in key
order; every positive holding is sold in full at its as-of price, the cash is
credited with `quantity * price * (1 - sell_commission)` and the holding is
zeroed. -/
def sellPhase (data : List (Ticker × Series)) (sc : ℚ) (d : Date) :
    List (Ticker × ℚ) → ℚ → Except Unit (List (Ticker × ℚ) × ℚ)
  | [], cash => .ok ([], cash)
  | e :: rest, cash =>
    if 0 < e.2 then
      match unitPriceAt data e.1 d with
      | .error err => .error err
      | .ok p =>
        match sellPhase data sc d rest (cash + e.2 * p * (1 - sc)) with
        | .error err => .error err
        | .ok r => .ok ((e.1, (0 : ℚ)) :: r.1, r.2)
    else
      match sellPhase data sc d rest cash with
      | .error err => .error err
      | .ok r => .ok (e :: r.1, r.2)

/-- `portfolio[best_asset] += shares_to_buy`: update the (unique) entry of
the given key. -/
def modifyQty : List (Ticker × ℚ) → Ticker → (ℚ → ℚ) → List (Ticker × ℚ)
  | [], _, _ => []
  | e :: rest, t, f =>
    if e.1 = t then (e.1, f e.2) :: rest else e :: modifyQty rest t f

/-- `portfolio[t]` read access (0 when absent; the simulator only reads
tickers it initialised). -/
def getQty (port : List (Ticker × ℚ)) (t : Ticker) : ℚ :=
  match port with
  | [] => 0
  | e :: rest => if e.1 = t then e.2 else getQty rest t

/-- The acquisition block (main.py lines 94-100): Python's `if best_asset:`
skips only the empty string; otherwise resolve the as-of price, floor-divide
the cash by the commission-loaded unit cost, add the bought quantity to the
target's holding and debit the exact amount spent. -/
def buyPhase (data : List (Ticker × Series)) (bc : ℚ) (d : Date) (best : Ticker)
    (port : List (Ticker × ℚ)) (cash : ℚ) : Except Unit (List (Ticker × ℚ) × ℚ) :=
  if best = "" then .ok (port, cash)
  else
    match unitPriceAt data best d with
    | .error err => .error err
    | .ok p =>
      let q : ℚ := ((⌊cash / (p * (1 + bc))⌋ : ℤ) : ℚ)
      .ok (modifyQty port best (fun x => x + q), cash - q * p * (1 + bc))

/-- The Σ of main.py line 102: every ticker of the portfolio (held or not) is
priced as-of the current date and weighted by its holding. -/
def holdingsValue (data : List (Ticker × Series)) (d : Date) :
    List (Ticker × ℚ) → Except Unit ℚ
  | [] => .ok 0
  | e :: rest =>
    match unitPriceAt data e.1 d with
    | .error err => .error err
    | .ok p =>
      match holdingsValue data d rest with
      | .error err => .error err
      | .ok v => .ok (e.2 * p + v)

/-- One row of `trade_history` (main.py lines 105-113). -/
structure TradeRecord where
  date : Date
  strategy : Strategy
  best_asset : Ticker
  cash : ℚ
  total_value : ℚ
  current_return : ℚ
  portfolio : List (Ticker × ℚ)
deriving DecidableEq, Repr

/-- The simulator's mutable state: the ledger plus the two histories. -/
structure SimState where
  cash : ℚ
  portfolio : List (Ticker × ℚ)
  value_history : List ℚ
  trade_history : List TradeRecord
deriving DecidableEq, Repr

/-- One iteration of the rebalancing loop (main.py lines 71-113): score,
choose, liquidate, acquire, value the book, append the two history entries.
`portfolio.copy()` is value snapshotting, which list values give for free. -/
def tradeStep (sub : Date → Nat → Date) (data : List (Ticker × Series))
    (attack safe : List Ticker) (bc sc initial : ℚ) (d : Date) (st : SimState) :
    Except Unit SimState :=
  match calculate_momentum_scores sub data d with
  | .error err => .error err
  | .ok scores =>
    match chooseAsset scores attack safe with
    | .error err => .error err
    | .ok (best, strat) =>
      match sellPhase data sc d st.portfolio st.cash with
      | .error err => .error err
      | .ok (port1, cash1) =>
        match buyPhase data bc d best port1 cash1 with
        | .error err => .error err
        | .ok (port2, cash2) =>
          match holdingsValue data d port2 with
          | .error err => .error err
          | .ok hv =>
            let tv := cash2 + hv
            .ok ⟨cash2, port2, st.value_history ++ [tv],
              st.trade_history ++
                [⟨d, strat, best, cash2, tv, (tv / initial - 1) * 100, port2⟩]⟩

/-- The rebalancing loop over the scheduled dates, in order; the first
uncaught exception aborts the run. -/
def simSteps (sub : Date → Nat → Date) (data : List (Ticker × Series))
    (attack safe : List Ticker) (bc sc initial : ℚ) :
    SimState → List Date → Except Unit SimState
  | st, [] => .ok st
  | st, d :: ds =>
    match tradeStep sub data attack safe bc sc initial d st with
    | .error err => .error err
    | .ok st' => simSteps sub data attack safe bc sc initial st' ds

/-- `portfolio = {ticker: 0 for ticker in tickers}` (main.py line 64). -/
def initPortfolio (tickers : List Ticker) : List (Ticker × ℚ) :=
  tickers.map (fun t => (t, 0))

/-- The simulator's state just after construction (main.py lines 63-66). -/
def initState (tickers : List Ticker) (initial : ℚ) : SimState :=
  ⟨initial, initPortfolio tickers, [], []⟩

/-- The whole simulation loop of `simulate_trading`, from full cash and an
empty history, over the given monthly schedule. -/
def runSim (sub : Date → Nat → Date) (data : List (Ticker × Series))
    (attack safe : List Ticker) (bc sc initial : ℚ) (ds : List Date) :
    Except Unit SimState :=
  simSteps sub data attack safe bc sc initial (initState (attack ++ safe) initial) ds

/-- `final_value = value_history[-1]` (main.py line 118); indexing an empty
list raises. -/
def final_value (st : SimState) : Except Unit ℚ :=
  match st.value_history.getLast? with
  | some v => .ok v
  | none => .error ()

/-- `annual_return = ((final/initial) ** (1 / (len(dates) / 12)) - 1) * 100`
(main.py line 119); the float power is real exponentiation. -/
noncomputable def annual_return (initial : ℚ) (n : Nat) (final : ℚ) : ℝ :=
  (((final : ℝ) / (initial : ℝ)) ^ ((1 : ℝ) / ((n : ℝ) / 12)) - 1) * 100

/-- `simulate_trading`'s return value (main.py lines 118-119 and 141): the
last recorded total value and the annualized return derived from it. -/
noncomputable def simulate_trading (sub : Date → Nat → Date)
    (data : List (Ticker × Series)) (attack safe : List Ticker)
    (bc sc initial : ℚ) (ds : List Date) : Except Unit (ℚ × ℝ) :=
  match runSim sub data attack safe bc sc initial ds with
  | .error err => .error err
  | .ok st =>
    match final_value st with
    | .error err => .error err
    | .ok fv => .ok (fv, annual_return initial ds.length fv)

/-- The risk universe hard-coded on main.py line 57. -/
def attack_assets : List Ticker := ["SPY", "EFA", "EEM", "AGG", "QQQ"]

/-- The safety universe hard-coded on main.py line 58. -/
def safe_assets : List Ticker := ["LQD", "IEF", "SHY"]

/-! ## Concrete instances used by witnesses and counterexamples -/

/-- A concrete month-offset function for witnesses: time measured in months,
so the pandas offsets `0, -1, -3, -6, -12` months land on `d - k`. -/
def subM (d : Date) (k : Nat) : Date := d - (k : Int)

/-- A 13-month-deep constant price column: observations at the five offsets
a single evaluation at date 0 needs, all priced 1. -/
def constSeries : Series :=
  [(-12, some 1), (-6, some 1), (-3, some 1), (-1, some 1), (0, some 1)]

/-- Witness data: the full hard-coded universe, every column `constSeries`. -/
def cdata : List (Ticker × Series) :=
  (attack_assets ++ safe_assets).map (fun t => (t, constSeries))

/-- A column whose history reaches only 6 months back: its required
12-month-prior observation predates its first listed price, while the other
four lookbacks resolve fine. -/
def lateSeries : Series := [(-6, some 1), (-3, some 1), (-1, some 1), (0, some 1)]

/-- Data for the insufficient-history scenario: SPY has full history, EFA is
listed too late for the 12-month lookback. -/
def ldata : List (Ticker × Series) := [("SPY", constSeries), ("EFA", lateSeries)]

/-- The scores the witness data `cdata` produces at date 0: every ratio is 1,
so every score is 0. -/
def scores0 : List (Ticker × WithBot ℚ) :=
  [("SPY", ((0 : ℚ) : WithBot ℚ)), ("EFA", ((0 : ℚ) : WithBot ℚ)),
   ("EEM", ((0 : ℚ) : WithBot ℚ)), ("AGG", ((0 : ℚ) : WithBot ℚ)),
   ("QQQ", ((0 : ℚ) : WithBot ℚ)), ("LQD", ((0 : ℚ) : WithBot ℚ)),
   ("IEF", ((0 : ℚ) : WithBot ℚ)), ("SHY", ((0 : ℚ) : WithBot ℚ))]

/-- The all-flat portfolio over the full universe. -/
def port0 : List (Ticker × ℚ) := initPortfolio (attack_assets ++ safe_assets)

/-- The book holding one unit of LQD, otherwise flat. -/
def portL (q : ℚ) : List (Ticker × ℚ) :=
  [("SPY", 0), ("EFA", 0), ("EEM", 0), ("AGG", 0), ("QQQ", 0), ("LQD", q),
   ("IEF", 0), ("SHY", 0)]

/-- Concrete scores for the C1 witness: risk universe `[SPY, EFA]` with
scores 11/2 and 7/2, safety universe `[LQD]` with score -1/2. -/
def scoresW : List (Ticker × WithBot ℚ) :=
  [("SPY", ((11 / 2 : ℚ) : WithBot ℚ)), ("EFA", ((7 / 2 : ℚ) : WithBot ℚ)),
   ("LQD", ((-1 / 2 : ℚ) : WithBot ℚ))]

/-- Data for the C2 witness: one ticker, effective (commission-inclusive)
unit cost 333334. -/
def bdata : List (Ticker × Series) := [("AAA", [((0 : Date), some (333334 : ℚ))])]

/-- The state the one-step all-in run with zero commissions ends in. -/
def stR3 : SimState := ⟨0, portL 2, [2], [⟨0, .safety, "LQD", 0, 2, 0, portL 2⟩]⟩

/-- The state after one step of the 100%-buy-commission run. -/
def stR1 : SimState := ⟨0, portL 1, [1], [⟨0, .safety, "LQD", 0, 1, -50, portL 1⟩]⟩

/-- The state after the second (same-date) step of that run: the unit of LQD
is liquidated for 1 and the proceeds cannot buy a unit back at loaded cost 2. -/
def stR2 : SimState :=
  ⟨1, portL 0, [1, 1],
    [⟨0, .safety, "LQD", 0, 1, -50, portL 1⟩, ⟨0, .safety, "LQD", 1, 1, -50, portL 0⟩]⟩

/-! ## Specification-side predicates -/

/-- `m` attains the maximal key in `l` and is the first to do so: everything
before it is strictly smaller, everything after it no larger. This is how
Python's `max(l, key=key)` breaks ties. -/
def firstArgmax (key : Ticker → WithBot ℚ) (l : List Ticker) (m : Ticker) : Prop :=
  ∃ l₁ l₂, l = l₁ ++ m :: l₂ ∧ (∀ x ∈ l₁, key x < key m) ∧ ∀ x ∈ l₂, key x ≤ key m

/-- At most one ticker of the book holds a positive quantity. -/
def AtMostOneHolder (port : List (Ticker × ℚ)) : Prop :=
  ∀ e₁ ∈ port, ∀ e₂ ∈ port, 0 < e₁.2 → 0 < e₂.2 → e₁.1 = e₂.1

/-- The resolved as-of price, defaulted to 0 on failure; used only to state
the liquidation cash identity (under success every sold ticker resolves). -/
def priceValD (data : List (Ticker × Series)) (t : Ticker) (d : Date) : ℚ :=
  match unitPriceAt data t d with
  | .ok p => p
  | .error _ => 0

/-! ## General helper lemmas -/

theorem intMax?_eq_some_iff {l : List Int} {m : Int} :
    l.max? = some m ↔ m ∈ l ∧ ∀ b ∈ l, b ≤ m := by
  haveI : Std.Antisymm (fun a b : Int => a ≤ b) := ⟨fun h h' => le_antisymm h h'⟩
  exact List.max?_eq_some_iff (fun a => le_refl a) (fun a b => max_choice a b)
    (fun a b c => max_le_iff)

/-- C7. The as-of resolver: a date with an observation resolves to itself;
otherwise it resolves to the greatest observation date strictly before the
target; and it yields no date at all (pandas `NaT`, the `NoPriorObservation`
failure every subsequent lookup turns into an abort) exactly when no
observation lies on or before the target. -/
theorem get_closest_date_spec (s : Series) (d c : Date) :
    (d ∈ dropnaDates s → get_closest_date s d = some d) ∧
    (d ∉ dropnaDates s →
      (get_closest_date s d = some c ↔
        c ∈ dropnaDates s ∧ c < d ∧ ∀ e ∈ dropnaDates s, e < d → e ≤ c)) ∧
    (get_closest_date s d = none ↔ ∀ e ∈ dropnaDates s, ¬e ≤ d) := by
  refine ⟨fun hmem => ?_, fun hmem => ?_, ?_⟩
  · simp [get_closest_date, hmem]
  · rw [show get_closest_date s d
        = ((dropnaDates s).filter (fun c => decide (c ≤ d))).max? by
      simp [get_closest_date, hmem]]
    rw [intMax?_eq_some_iff]
    constructor
    · rintro ⟨hc, hub⟩
      rw [List.mem_filter, decide_eq_true_iff] at hc
      have hcd : c < d := lt_of_le_of_ne hc.2 (fun h => hmem (h ▸ hc.1))
      refine ⟨hc.1, hcd, fun e he hed => ?_⟩
      exact hub e (by rw [List.mem_filter, decide_eq_true_iff]; exact ⟨he, le_of_lt hed⟩)
    · rintro ⟨hc, hcd, hub⟩
      refine ⟨by rw [List.mem_filter, decide_eq_true_iff]; exact ⟨hc, le_of_lt hcd⟩,
        fun b hb => ?_⟩
      rw [List.mem_filter, decide_eq_true_iff] at hb
      have hbd : b < d := lt_of_le_of_ne hb.2 (fun h => hmem (h ▸ hb.1))
      exact hub b hb.1 hbd
  · constructor
    · intro hnone e he hed
      by_cases hmem : d ∈ dropnaDates s
      · simp [get_closest_date, hmem] at hnone
      · rw [show get_closest_date s d
            = ((dropnaDates s).filter (fun c => decide (c ≤ d))).max? by
          simp [get_closest_date, hmem]] at hnone
        rw [List.max?_eq_none_iff] at hnone
        have : e ∈ (dropnaDates s).filter (fun c => decide (c ≤ d)) := by
          rw [List.mem_filter, decide_eq_true_iff]; exact ⟨he, hed⟩
        simp [hnone] at this
    · intro hnone
      have hmem : d ∉ dropnaDates s := fun h => hnone d h (le_refl d)
      rw [show get_closest_date s d
          = ((dropnaDates s).filter (fun c => decide (c ≤ d))).max? by
        simp [get_closest_date, hmem]]
      rw [List.max?_eq_none_iff]
      rw [List.filter_eq_nil_iff]
      intro e he
      rw [decide_eq_true_iff]
      exact fun hed => hnone e he hed

/-- Witness for C7 at a concrete series: date 3 is in the raw index but its
cell is NaN, so it resolves to the prior observed date 1. -/
theorem get_closest_date_spec_witness :
    ((3 : Date) ∈ dropnaDates [((1 : Date), some (5:ℚ)), (3, none), (4, some 2)] →
      get_closest_date [((1 : Date), some (5:ℚ)), (3, none), (4, some 2)] 3 = some 3) ∧
    ((3 : Date) ∉ dropnaDates [((1 : Date), some (5:ℚ)), (3, none), (4, some 2)] →
      (get_closest_date [((1 : Date), some (5:ℚ)), (3, none), (4, some 2)] 3 = some 1 ↔
        (1 : Date) ∈ dropnaDates [((1 : Date), some (5:ℚ)), (3, none), (4, some 2)] ∧
          (1 : Date) < 3 ∧
          ∀ e ∈ dropnaDates [((1 : Date), some (5:ℚ)), (3, none), (4, some 2)],
            e < 3 → e ≤ 1)) ∧
    (get_closest_date [((1 : Date), some (5:ℚ)), (3, none), (4, some 2)] 3 = none ↔
      ∀ e ∈ dropnaDates [((1 : Date), some (5:ℚ)), (3, none), (4, some 2)], ¬e ≤ 3) :=
  get_closest_date_spec [((1 : Date), some (5:ℚ)), (3, none), (4, some 2)] 3 1

/-- C5. When all five as-of resolutions at offsets 0, -1, -3, -6, -12 months
yield available prices, the momentum score is exactly the 12/4/2/1-weighted
blend of the four price-return ratios. The score is a function of the price
series and the date alone (it is a pure Lean function of them). -/
theorem tickerScore_formula (sub : Date → Nat → Date) (s : Series) (d : Date)
    (c0 c1 c3 c6 c12 : Date) (p0 p1 p3 p6 p12 : ℚ)
    (h0 : get_closest_date s d = some c0)
    (h1 : get_closest_date s (sub d 1) = some c1)
    (h3 : get_closest_date s (sub d 3) = some c3)
    (h6 : get_closest_date s (sub d 6) = some c6)
    (h12 : get_closest_date s (sub d 12) = some c12)
    (r0 : locRow s c0 = .ok (some p0)) (r1 : locRow s c1 = .ok (some p1))
    (r3 : locRow s c3 = .ok (some p3)) (r6 : locRow s c6 = .ok (some p6))
    (r12 : locRow s c12 = .ok (some p12)) :
    tickerScore sub s d =
      .ok ↑(12 * (p0 / p1 - 1) + 4 * (p0 / p3 - 1) + 2 * (p0 / p6 - 1)
        + 1 * (p0 / p12 - 1)) := by
  rw [tickerScore]
  simp only [h0, h1, h3, h6, h12, locCell, r0, r1, r3, r6, r12]
  rw [show momentumFormula p0 p1 p3 p6 p12
      = 12 * (p0 / p1 - 1) + 4 * (p0 / p3 - 1) + 2 * (p0 / p6 - 1)
        + 1 * (p0 / p12 - 1) by rw [momentumFormula]; ring]

/-- Witness for C5 on the constant series: all ratios are 1, score 0. -/
theorem tickerScore_formula_witness :
    tickerScore subM constSeries 0 =
      .ok ↑(12 * ((1:ℚ) / 1 - 1) + 4 * ((1:ℚ) / 1 - 1) + 2 * ((1:ℚ) / 1 - 1)
        + 1 * ((1:ℚ) / 1 - 1)) :=
  tickerScore_formula subM constSeries 0 0 (-1) (-3) (-6) (-12) 1 1 1 1 1
    (by simp [get_closest_date, dropnaDates, constSeries])
    (by simp [get_closest_date, dropnaDates, constSeries, subM])
    (by simp [get_closest_date, dropnaDates, constSeries, subM])
    (by simp [get_closest_date, dropnaDates, constSeries, subM])
    (by simp [get_closest_date, dropnaDates, constSeries, subM])
    (by simp [locRow, constSeries]) (by simp [locRow, constSeries])
    (by simp [locRow, constSeries]) (by simp [locRow, constSeries])
    (by simp [locRow, constSeries])

theorem foldl_pymax_spec (key : Ticker → WithBot ℚ) :
    ∀ (xs : List Ticker) (x : Ticker),
      firstArgmax key (x :: xs) (xs.foldl (fun b y => if key b < key y then y else b) x) := by
  intro xs
  induction xs with
  | nil => exact fun x => ⟨[], [], rfl, by simp, by simp⟩
  | cons y ys ih =>
    intro x
    rw [List.foldl_cons]
    by_cases h : key x < key y
    · rw [if_pos h]
      obtain ⟨l₁, l₂, heq, hlt, hle⟩ := ih y
      refine ⟨x :: l₁, l₂, by rw [List.cons_append, ← heq], fun z hz => ?_, hle⟩
      rcases List.mem_cons.mp hz with hz | hz
      · subst hz
        cases l₁ with
        | nil =>
          rw [List.nil_append] at heq
          exact (List.head_eq_of_cons_eq heq) ▸ h
        | cons a l₁' =>
          have ha : a = y := (List.head_eq_of_cons_eq heq).symm
          exact lt_trans h (ha ▸ hlt a (List.mem_cons_self a l₁'))
      · exact hlt z hz
    · rw [if_neg h]
      have hyx : key y ≤ key x := not_lt.mp h
      obtain ⟨l₁, l₂, heq, hlt, hle⟩ := ih x
      cases l₁ with
      | nil =>
        rw [List.nil_append] at heq
        have hm : x = ys.foldl (fun b y => if key b < key y then y else b) x :=
          List.head_eq_of_cons_eq heq
        have hys : ys = l₂ := List.tail_eq_of_cons_eq heq
        refine ⟨[], y :: l₂, ?_, by simp, fun z hz => ?_⟩
        · rw [List.nil_append, ← hys, ← hm]
        · rcases List.mem_cons.mp hz with hz | hz
          · subst hz; exact hyx.trans (le_of_eq (congrArg key hm))
          · exact hle z hz
      | cons a l₁' =>
        have ha : a = x := (List.head_eq_of_cons_eq heq).symm
        have hys : ys = l₁' ++ ys.foldl (fun b y => if key b < key y then y else b) x :: l₂ :=
          List.tail_eq_of_cons_eq heq
        have hxm : key x < key (ys.foldl (fun b y => if key b < key y then y else b) x) := by
          have h' := hlt a (List.mem_cons_self a l₁')
          rwa [ha] at h'
        refine ⟨x :: y :: l₁', l₂, ?_, fun z hz => ?_, hle⟩
        · rw [List.cons_append, List.cons_append, ← hys]
        · rcases List.mem_cons.mp hz with hz | hz
          · subst hz; exact hxm
          · rcases List.mem_cons.mp hz with hz | hz
            · subst hz; exact lt_of_le_of_lt hyx hxm
            · exact hlt z (List.mem_cons_of_mem a hz)

theorem pymax_firstArgmax {key : Ticker → WithBot ℚ} {l : List Ticker} {m : Ticker}
    (h : pymax key l = .ok m) : firstArgmax key l m := by
  cases l with
  | nil => exact absurd h (by simp [pymax])
  | cons x xs =>
    have hm : xs.foldl (fun b y => if key b < key y then y else b) x = m := by
      simpa [pymax] using h
    exact hm ▸ foldl_pymax_spec key xs x

/-- C1. The regime decision: the chosen strategy is the defensive one exactly
when every risk-asset score is `≤ 0` (so a score of exactly 0 triggers the
safety regime), and the chosen target is the first maximal-score ticker of
the safety universe in the defensive regime, of the risk universe otherwise,
ties broken by first position in the declared ordering. -/
theorem chooseAsset_regime_spec (scores : List (Ticker × WithBot ℚ))
    (attack safe : List Ticker) (best : Ticker) (strat : Strategy)
    (h : chooseAsset scores attack safe = .ok (best, strat)) :
    (strat = .safety ↔ ∀ a ∈ attack, dictGet scores a ≤ 0) ∧
    (strat = .safety → firstArgmax (dictGet scores) safe best) ∧
    (strat = .risk → firstArgmax (dictGet scores) attack best) := by
  rw [chooseAsset] at h
  cases hA : pymax (dictGet scores) attack with
  | error e => rw [hA] at h; exact absurd h (by simp)
  | ok ba =>
    rw [hA] at h
    cases hS : pymax (dictGet scores) safe with
    | error e => rw [hS] at h; exact absurd h (by simp)
    | ok bs =>
      rw [hS] at h
      simp only [] at h
      by_cases hall : attack.all (fun a => decide (dictGet scores a ≤ 0)) = true
      · rw [if_pos hall] at h
        have hb : bs = best ∧ Strategy.safety = strat := by
          simpa [Prod.ext_iff] using h
        refine ⟨?_, fun _ => ?_, fun hrisk => ?_⟩
        · rw [← hb.2]
          simp only [true_iff]
          intro a ha
          have := (List.all_eq_true.mp hall) a ha
          exact decide_eq_true_iff.mp this
        · exact hb.1 ▸ pymax_firstArgmax hS
        · rw [← hb.2] at hrisk; exact absurd hrisk (by simp)
      · rw [if_neg hall] at h
        have hb : ba = best ∧ Strategy.risk = strat := by
          simpa [Prod.ext_iff] using h
        refine ⟨?_, fun hsafe => ?_, fun _ => ?_⟩
        · rw [← hb.2]
          constructor
          · intro hcon; exact absurd hcon (by simp)
          · intro hall'
            exact absurd (List.all_eq_true.mpr
              (fun a ha => decide_eq_true_iff.mpr (hall' a ha))) hall
        · rw [← hb.2] at hsafe; exact absurd hsafe (by simp)
        · exact hb.1 ▸ pymax_firstArgmax hA

/-- Witness for C1: with a positive risk score present the regime is risk and
the target is SPY, the first maximal risk asset. -/
theorem chooseAsset_regime_spec_witness :
    ((Strategy.risk = .safety) ↔ ∀ a ∈ ["SPY", "EFA"], dictGet scoresW a ≤ 0) ∧
    (Strategy.risk = .safety → firstArgmax (dictGet scoresW) ["LQD"] ("SPY")) ∧
    (Strategy.risk = .risk → firstArgmax (dictGet scoresW) ["SPY", "EFA"] ("SPY")) :=
  chooseAsset_regime_spec scoresW ["SPY", "EFA"] ["LQD"] ("SPY") .risk
    (by simp [chooseAsset, pymax, dictGet, scoresW]
        norm_num)

theorem getQty_modifyQty (port : List (Ticker × ℚ)) (t : Ticker) (f : ℚ → ℚ)
    (hmem : t ∈ port.map Prod.fst) :
    getQty (modifyQty port t f) t = f (getQty port t) := by
  induction port with
  | nil => simp at hmem
  | cons e rest ih =>
    by_cases he : e.1 = t
    · rw [modifyQty, if_pos he]
      simp [getQty, he]
    · rw [modifyQty, if_neg he]
      rw [show getQty (e :: modifyQty rest t f) t = getQty (modifyQty rest t f) t by
        simp [getQty, he]]
      rw [show getQty (e :: rest) t = getQty rest t by simp [getQty, he]]
      refine ih ?_
      rcases List.mem_map.mp hmem with ⟨e', he', het⟩
      rcases List.mem_cons.mp he' with h' | h'
      · exact absurd (h' ▸ het) he
      · exact List.mem_map.mpr ⟨e', h', het⟩

/-- C2. The acquisition phase: the bought quantity is the floor of
`cash / (price * (1 + buy_commission))` — the greatest whole-unit quantity
whose commission-loaded cost fits in the cash — the cash is debited by the
exact amount spent, the target's holding becomes that quantity, and when the
cash cannot pay for one unit the quantity is 0 (no error, cash unchanged). -/
theorem buyPhase_spec (data : List (Ticker × Series)) (bc : ℚ) (d : Date)
    (t : Ticker) (port : List (Ticker × ℚ)) (cash p : ℚ)
    (ht : t ≠ "") (hp : unitPriceAt data t d = .ok p)
    (hpos : 0 < p * (1 + bc)) (hcash : 0 ≤ cash)
    (hmem : t ∈ port.map Prod.fst) (hq0 : getQty port t = 0) :
    buyPhase data bc d t port cash =
      .ok (modifyQty port t (fun x => x + ((⌊cash / (p * (1 + bc))⌋ : ℤ) : ℚ)),
        cash - ((⌊cash / (p * (1 + bc))⌋ : ℤ) : ℚ) * p * (1 + bc)) ∧
    getQty (modifyQty port t (fun x => x + ((⌊cash / (p * (1 + bc))⌋ : ℤ) : ℚ))) t
      = ((⌊cash / (p * (1 + bc))⌋ : ℤ) : ℚ) ∧
    ((⌊cash / (p * (1 + bc))⌋ : ℤ) : ℚ) * p * (1 + bc) ≤ cash ∧
    (∀ m : ℤ, (m : ℚ) * p * (1 + bc) ≤ cash → m ≤ ⌊cash / (p * (1 + bc))⌋) ∧
    (cash < p * (1 + bc) → ⌊cash / (p * (1 + bc))⌋ = 0) := by
  refine ⟨?_, ?_, ?_, ?_, ?_⟩
  · simp only [buyPhase, if_neg ht, hp]
  · rw [getQty_modifyQty port t _ hmem, hq0, zero_add]
  · rw [mul_assoc]
    exact (le_div_iff₀ hpos).mp (Int.floor_le _)
  · intro m hm
    rw [mul_assoc] at hm
    exact Int.le_floor.mpr ((le_div_iff₀ hpos).mpr hm)
  · intro hlt
    exact Int.floor_eq_zero_iff.mpr ⟨div_nonneg hcash hpos.le, (div_lt_one hpos).mpr hlt⟩

/-- Witness for C2, the spec's own scenario: cash 1,000,000, loaded unit cost
333,334 → 2 units bought, leftover 1,000,000 - 2 * 333,334. -/
theorem buyPhase_spec_witness :
    buyPhase bdata 0 0 ("AAA") [("AAA", 0)] 1000000
      = .ok ([("AAA", 2)], 1000000 - 2 * 333334) ∧
    (⌊(1000000 : ℚ) / (333334 * (1 + 0))⌋ : ℤ) = 2 := by
  have hfl : (⌊(1000000 : ℚ) / (333334 * (1 + 0))⌋ : ℤ) = 2 := by norm_num
  have h := buyPhase_spec bdata 0 0 ("AAA") [("AAA", 0)] 1000000 333334
    (by decide)
    (by simp [unitPriceAt, seriesOf, locCell, locRow, get_closest_date, dropnaDates, bdata])
    (by norm_num) (by norm_num) (by simp) (by simp [getQty])
  refine ⟨?_, hfl⟩
  rw [h.1, hfl]
  simp [modifyQty]

theorem sellPhase_spec (data : List (Ticker × Series)) (sc : ℚ) (d : Date) :
    ∀ (port : List (Ticker × ℚ)) (cash : ℚ) (port' : List (Ticker × ℚ)) (cash' : ℚ),
      sellPhase data sc d port cash = .ok (port', cash') →
      port' = port.map (fun e => (e.1, if 0 < e.2 then (0 : ℚ) else e.2)) ∧
      cash' = cash + (port.map (fun e =>
        if 0 < e.2 then e.2 * priceValD data e.1 d * (1 - sc) else 0)).sum ∧
      ∀ e ∈ port, 0 < e.2 → ∃ p, unitPriceAt data e.1 d = .ok p := by
  intro port
  induction port with
  | nil =>
    intro cash port' cash' h
    rw [sellPhase] at h
    obtain ⟨h1, h2⟩ : ([] : List (Ticker × ℚ)) = port' ∧ cash = cash' := by simpa using h
    simp [← h1, ← h2]
  | cons e rest ih =>
    intro cash port' cash' h
    rw [sellPhase] at h
    by_cases he : 0 < e.2
    · rw [if_pos he] at h
      cases hup : unitPriceAt data e.1 d with
      | error err => simp [hup] at h
      | ok p =>
        simp only [hup] at h
        cases hrec : sellPhase data sc d rest (cash + e.2 * p * (1 - sc)) with
        | error err => simp [hrec] at h
        | ok r =>
          simp only [hrec] at h
          obtain ⟨h1, h2⟩ : (e.1, (0 : ℚ)) :: r.1 = port' ∧ r.2 = cash' := by simpa using h
          obtain ⟨ih1, ih2, ih3⟩ := ih (cash + e.2 * p * (1 - sc)) r.1 r.2 (by rw [hrec])
          refine ⟨?_, ?_, ?_⟩
          · rw [← h1, ih1, List.map_cons, if_pos he]
          · rw [← h2, ih2, List.map_cons, List.sum_cons, if_pos he,
              show priceValD data e.1 d = p by rw [priceValD, hup]]
            ring
          · intro e' he'
            rcases List.mem_cons.mp he' with h' | h'
            · exact fun _ => ⟨p, h' ▸ hup⟩
            · exact ih3 e' h'
    · rw [if_neg he] at h
      cases hrec : sellPhase data sc d rest cash with
      | error err => simp [hrec] at h
      | ok r =>
        simp only [hrec] at h
        obtain ⟨h1, h2⟩ : e :: r.1 = port' ∧ r.2 = cash' := by simpa using h
        obtain ⟨ih1, ih2, ih3⟩ := ih cash r.1 r.2 (by rw [hrec])
        refine ⟨?_, ?_, ?_⟩
        · rw [← h1, ih1, List.map_cons, if_neg he]
        · rw [← h2, ih2, List.map_cons, List.sum_cons, if_neg he]
          ring
        · intro e' he'
          rcases List.mem_cons.mp he' with h' | h'
          · exact fun hpos => absurd (h' ▸ hpos) he
          · exact ih3 e' h'

/-- Success of one rebalancing step decomposes into the successes of its five
stages, and determines the new state. -/
theorem tradeStep_ok_elim {sub : Date → Nat → Date} {data : List (Ticker × Series)}
    {attack safe : List Ticker} {bc sc initial : ℚ} {d : Date} {st st' : SimState}
    (h : tradeStep sub data attack safe bc sc initial d st = .ok st') :
    ∃ scores best strat port1 cash1 port2 cash2 hv,
      calculate_momentum_scores sub data d = .ok scores ∧
      chooseAsset scores attack safe = .ok (best, strat) ∧
      sellPhase data sc d st.portfolio st.cash = .ok (port1, cash1) ∧
      buyPhase data bc d best port1 cash1 = .ok (port2, cash2) ∧
      holdingsValue data d port2 = .ok hv ∧
      st' = ⟨cash2, port2, st.value_history ++ [cash2 + hv],
        st.trade_history ++ [⟨d, strat, best, cash2, cash2 + hv,
          ((cash2 + hv) / initial - 1) * 100, port2⟩]⟩ := by
  rw [tradeStep] at h
  cases h1 : calculate_momentum_scores sub data d with
  | error err => simp [h1] at h
  | ok scores =>
    simp only [h1] at h
    cases h2 : chooseAsset scores attack safe with
    | error err => simp [h2] at h
    | ok bs =>
      obtain ⟨best, strat⟩ := bs
      simp only [h2] at h
      cases h3 : sellPhase data sc d st.portfolio st.cash with
      | error err => simp [h3] at h
      | ok pc1 =>
        obtain ⟨port1, cash1⟩ := pc1
        simp only [h3] at h
        cases h4 : buyPhase data bc d best port1 cash1 with
        | error err => simp [h4] at h
        | ok pc2 =>
          obtain ⟨port2, cash2⟩ := pc2
          simp only [h4] at h
          cases h5 : holdingsValue data d port2 with
          | error err => simp [h5] at h
          | ok hv =>
            simp only [h5] at h
            refine ⟨scores, best, strat, port1, cash1, port2, cash2, hv,
              rfl, h2, rfl, h4, h5, ?_⟩
            simpa using h.symm

/-- C8. Every successful step runs the liquidation phase before acquisition,
unconditionally: each positively held ticker is sold in full at its as-of
price — cash is credited `quantity * price * (1 - sell_commission)` and the
holding zeroed — regardless of which target the step later buys (so an
unchanged target still pays the round-trip commission). -/
theorem tradeStep_liquidation_spec (sub : Date → Nat → Date)
    (data : List (Ticker × Series)) (attack safe : List Ticker)
    (bc sc initial : ℚ) (d : Date) (st st' : SimState)
    (h : tradeStep sub data attack safe bc sc initial d st = .ok st') :
    ∃ port1 cash1,
      sellPhase data sc d st.portfolio st.cash = .ok (port1, cash1) ∧
      port1 = st.portfolio.map (fun e => (e.1, if 0 < e.2 then (0 : ℚ) else e.2)) ∧
      cash1 = st.cash + (st.portfolio.map (fun e =>
        if 0 < e.2 then e.2 * priceValD data e.1 d * (1 - sc) else 0)).sum ∧
      (∀ e ∈ st.portfolio, 0 < e.2 → ∃ p, unitPriceAt data e.1 d = .ok p) := by
  obtain ⟨scores, best, strat, port1, cash1, port2, cash2, hv,
    h1, h2, h3, h4, h5, hst⟩ := tradeStep_ok_elim h
  obtain ⟨hs1, hs2, hs3⟩ := sellPhase_spec data sc d st.portfolio st.cash port1 cash1 h3
  exact ⟨port1, cash1, h3, hs1, hs2, hs3⟩

theorem ev_scores : calculate_momentum_scores subM cdata 0 = .ok scores0 := by
  norm_num [calculate_momentum_scores, tickerScore, get_closest_date, dropnaDates,
    locCell, locRow, momentumFormula, subM, cdata, constSeries, attack_assets,
    safe_assets, scores0, List.filter, List.max?]

theorem ev_choose : chooseAsset scores0 attack_assets safe_assets = .ok (("LQD"), .safety) := by
  norm_num [chooseAsset, pymax, dictGet, scores0, attack_assets, safe_assets]

theorem ev_step_hold :
    tradeStep subM cdata attack_assets safe_assets 0 0 2 0 ⟨1, portL 1, [], []⟩ =
      .ok ⟨0, portL 2, [2], [⟨0, .safety, "LQD", 0, 2, 0, portL 2⟩]⟩ := by
  have hs : sellPhase cdata 0 0 (portL 1) 1 = .ok (portL 0, 2) := by
    simp [sellPhase, portL, unitPriceAt, seriesOf, locCell, locRow, get_closest_date,
      dropnaDates, cdata, constSeries, attack_assets, safe_assets]
    norm_num
  have hb : buyPhase cdata 0 0 ("LQD") (portL 0) 2 = .ok (portL 2, 0) := by
    simp [buyPhase, unitPriceAt, seriesOf, locCell, locRow, get_closest_date, dropnaDates,
      modifyQty, cdata, constSeries, attack_assets, safe_assets, portL]
  have hhv : holdingsValue cdata 0 (portL 2) = .ok 2 := by
    simp [holdingsValue, unitPriceAt, seriesOf, locCell, locRow, get_closest_date,
      dropnaDates, cdata, constSeries, attack_assets, safe_assets, portL]
  simp only [tradeStep, ev_scores, ev_choose, hs, hb, hhv]
  norm_num

/-- Witness for C8 at a step that starts holding one unit of LQD: the
liquidation zeroes it and credits the proceeds before the re-buy. -/
theorem tradeStep_liquidation_spec_witness :
    ∃ port1 cash1,
      sellPhase cdata 0 0 (portL 1) 1 = .ok (port1, cash1) ∧
      port1 = (portL 1).map (fun e => (e.1, if 0 < e.2 then (0 : ℚ) else e.2)) ∧
      cash1 = 1 + ((portL 1).map (fun e =>
        if 0 < e.2 then e.2 * priceValD cdata e.1 0 * (1 - 0) else 0)).sum ∧
      (∀ e ∈ portL 1, 0 < e.2 → ∃ p, unitPriceAt cdata e.1 0 = .ok p) :=
  tradeStep_liquidation_spec subM cdata attack_assets safe_assets 0 0 2 0
    ⟨1, portL 1, [], []⟩ ⟨0, portL 2, [2], [⟨0, .safety, "LQD", 0, 2, 0, portL 2⟩]⟩
    ev_step_hold

theorem sellTerm_nonneg (data : List (Ticker × Series)) (sc : ℚ) (d : Date)
    (hsc1 : sc ≤ 1) (hp : ∀ t d p, unitPriceAt data t d = .ok p → 0 < p)
    (e : Ticker × ℚ) :
    0 ≤ if 0 < e.2 then e.2 * priceValD data e.1 d * (1 - sc) else 0 := by
  by_cases he : 0 < e.2
  · rw [if_pos he]
    have hpv : 0 ≤ priceValD data e.1 d := by
      cases hup : unitPriceAt data e.1 d with
      | error err => simp [priceValD, hup]
      | ok p => simp only [priceValD, hup]; exact (hp _ _ _ hup).le
    have h1 : (0 : ℚ) ≤ 1 - sc := by linarith
    exact mul_nonneg (mul_nonneg he.le hpv) h1
  · rw [if_neg he]

theorem mem_modifyQty {port : List (Ticker × ℚ)} {t : Ticker} {f : ℚ → ℚ} :
    ∀ e' ∈ modifyQty port t f, e' ∈ port ∨ ∃ e ∈ port, e.1 = t ∧ e' = (t, f e.2) := by
  induction port with
  | nil => intro e' h; simp [modifyQty] at h
  | cons e rest ih =>
    intro e' h
    rw [modifyQty] at h
    by_cases he : e.1 = t
    · rw [if_pos he] at h
      rcases List.mem_cons.mp h with h' | h'
      · right; exact ⟨e, List.mem_cons_self e rest, he, by rw [h', he]⟩
      · left; exact List.mem_cons_of_mem e h'
    · rw [if_neg he] at h
      rcases List.mem_cons.mp h with h' | h'
      · left; exact h' ▸ List.mem_cons_self e rest
      · rcases ih e' h' with h'' | ⟨e₀, he₀, het, heq⟩
        · left; exact List.mem_cons_of_mem e h''
        · right; exact ⟨e₀, List.mem_cons_of_mem e he₀, het, heq⟩

theorem buyPhase_out {data : List (Ticker × Series)} {bc : ℚ} {d : Date} {best : Ticker}
    {port1 : List (Ticker × ℚ)} {cash1 : ℚ} {port2 : List (Ticker × ℚ)} {cash2 : ℚ}
    (h : buyPhase data bc d best port1 cash1 = .ok (port2, cash2)) :
    (port2 = port1 ∧ cash2 = cash1) ∨
    ∃ p, unitPriceAt data best d = .ok p ∧
      port2 = modifyQty port1 best (fun x => x + ((⌊cash1 / (p * (1 + bc))⌋ : ℤ) : ℚ)) ∧
      cash2 = cash1 - ((⌊cash1 / (p * (1 + bc))⌋ : ℤ) : ℚ) * p * (1 + bc) := by
  rw [buyPhase] at h
  by_cases hb : best = ""
  · rw [if_pos hb] at h
    obtain ⟨h1, h2⟩ : port1 = port2 ∧ cash1 = cash2 := by simpa using h
    exact Or.inl ⟨h1.symm, h2.symm⟩
  · rw [if_neg hb] at h
    cases hup : unitPriceAt data best d with
    | error err => simp [hup] at h
    | ok p =>
      simp only [hup] at h
      obtain ⟨h1, h2⟩ :
          modifyQty port1 best (fun x => x + ((⌊cash1 / (p * (1 + bc))⌋ : ℤ) : ℚ)) = port2 ∧
          cash1 - ((⌊cash1 / (p * (1 + bc))⌋ : ℤ) : ℚ) * p * (1 + bc) = cash2 := by
        simpa using h
      exact Or.inr ⟨p, rfl, h1.symm, h2.symm⟩

theorem tradeStep_cash_inv {sub : Date → Nat → Date} {data : List (Ticker × Series)}
    {attack safe : List Ticker} {bc sc initial : ℚ} {d : Date} {st st' : SimState}
    (hbc : 0 ≤ bc) (hsc1 : sc ≤ 1)
    (hp : ∀ t d p, unitPriceAt data t d = .ok p → 0 < p)
    (h : tradeStep sub data attack safe bc sc initial d st = .ok st')
    (hc : 0 ≤ st.cash) (hq : ∀ e ∈ st.portfolio, 0 ≤ e.2) :
    0 ≤ st'.cash ∧ (∀ e ∈ st'.portfolio, 0 ≤ e.2) ∧
    ∀ rec ∈ st'.trade_history, rec ∈ st.trade_history ∨ rec.cash = st'.cash := by
  obtain ⟨scores, best, strat, port1, cash1, port2, cash2, hv,
    h1, h2, h3, h4, h5, hst⟩ := tradeStep_ok_elim h
  obtain ⟨hs1, hs2, _⟩ := sellPhase_spec data sc d st.portfolio st.cash port1 cash1 h3
  have hc1 : 0 ≤ cash1 := by
    rw [hs2]
    have hsum : 0 ≤ (st.portfolio.map (fun e =>
        if 0 < e.2 then e.2 * priceValD data e.1 d * (1 - sc) else 0)).sum := by
      apply List.sum_nonneg
      intro x hx
      rcases List.mem_map.mp hx with ⟨e, _, rfl⟩
      exact sellTerm_nonneg data sc d hsc1 hp e
    linarith
  have hq1 : ∀ e ∈ port1, 0 ≤ e.2 := by
    rw [hs1]
    intro e' he'
    rcases List.mem_map.mp he' with ⟨e, he, rfl⟩
    dsimp only
    by_cases hpos : 0 < e.2
    · rw [if_pos hpos]
    · rw [if_neg hpos]; exact hq e he
  have hbuy : 0 ≤ cash2 ∧ ∀ e ∈ port2, 0 ≤ e.2 := by
    rcases buyPhase_out h4 with ⟨hp2, hc2⟩ | ⟨p, hup, hp2, hc2⟩
    · exact ⟨hc2 ▸ hc1, hp2 ▸ hq1⟩
    · have hppos : 0 < p := hp _ _ _ hup
      have hy : 0 < p * (1 + bc) := mul_pos hppos (by linarith)
      have hqn : 0 ≤ ((⌊cash1 / (p * (1 + bc))⌋ : ℤ) : ℚ) := by
        have := Int.floor_nonneg.mpr (div_nonneg hc1 hy.le)
        exact_mod_cast this
      constructor
      · rw [hc2, mul_assoc]
        have := (le_div_iff₀ hy).mp (Int.floor_le (cash1 / (p * (1 + bc))))
        linarith
      · rw [hp2]
        intro e' he'
        rcases mem_modifyQty e' he' with h' | ⟨e₀, he₀, _, rfl⟩
        · exact hq1 e' h'
        · exact add_nonneg (hq1 e₀ he₀) hqn
  refine ⟨?_, ?_, ?_⟩
  · rw [hst]; exact hbuy.1
  · rw [hst]; exact hbuy.2
  · rw [hst]
    intro rec hr
    rcases List.mem_append.mp hr with hin | hnew
    · exact Or.inl hin
    · right
      obtain rfl : rec = ⟨d, strat, best, cash2, cash2 + hv,
          ((cash2 + hv) / initial - 1) * 100, port2⟩ := by simpa using hnew
      rfl

theorem simSteps_cash_inv {sub : Date → Nat → Date} {data : List (Ticker × Series)}
    {attack safe : List Ticker} {bc sc initial : ℚ}
    (hbc : 0 ≤ bc) (hsc1 : sc ≤ 1)
    (hp : ∀ t d p, unitPriceAt data t d = .ok p → 0 < p) :
    ∀ (ds : List Date) (st r : SimState),
      simSteps sub data attack safe bc sc initial st ds = .ok r →
      0 ≤ st.cash → (∀ e ∈ st.portfolio, 0 ≤ e.2) →
      (∀ rec ∈ st.trade_history, 0 ≤ rec.cash) →
      0 ≤ r.cash ∧ (∀ e ∈ r.portfolio, 0 ≤ e.2) ∧
        ∀ rec ∈ r.trade_history, 0 ≤ rec.cash := by
  intro ds
  induction ds with
  | nil =>
    intro st r h hc hq hrec
    obtain rfl : st = r := by simpa [simSteps] using h
    exact ⟨hc, hq, hrec⟩
  | cons d ds ih =>
    intro st r h hc hq hrec
    rw [simSteps] at h
    cases hstep : tradeStep sub data attack safe bc sc initial d st with
    | error err => simp [hstep] at h
    | ok st1 =>
      simp only [hstep] at h
      obtain ⟨h1, h2, h3⟩ := tradeStep_cash_inv hbc hsc1 hp hstep hc hq
      refine ih st1 r h h1 h2 ?_
      intro rec hr
      rcases h3 rec hr with hin | hcash
      · exact hrec rec hin
      · rw [hcash]; exact h1

/-- C3. With commission rates in `[0, 1)`, non-negative initial cash and
positive resolved prices, every successful run keeps `cash ≥ 0`: the final
cash, every step's recorded post-acquisition cash, and the cash any further
liquidation from a reached state would produce are all non-negative. -/
theorem runSim_cash_nonneg (sub : Date → Nat → Date) (data : List (Ticker × Series))
    (attack safe : List Ticker) (bc sc initial : ℚ) (ds : List Date) (r : SimState)
    (hbc0 : 0 ≤ bc) (hbc1 : bc < 1) (hsc0 : 0 ≤ sc) (hsc1 : sc < 1)
    (hinit : 0 ≤ initial)
    (hp : ∀ t d p, unitPriceAt data t d = .ok p → 0 < p)
    (h : runSim sub data attack safe bc sc initial ds = .ok r) :
    0 ≤ r.cash ∧ (∀ rec ∈ r.trade_history, 0 ≤ rec.cash) ∧
    ∀ d port1 cash1, sellPhase data sc d r.portfolio r.cash = .ok (port1, cash1) →
      0 ≤ cash1 := by
  have hinv := simSteps_cash_inv hbc0 hsc1.le hp ds
    (initState (attack ++ safe) initial) r h
    (by simpa [initState] using hinit)
    (by
      intro e he
      rw [initState] at he
      rcases List.mem_map.mp he with ⟨t, _, rfl⟩
      exact le_refl 0)
    (by simp [initState])
  refine ⟨hinv.1, hinv.2.2, ?_⟩
  intro d port1 cash1 hs
  obtain ⟨-, hcash, -⟩ := sellPhase_spec data sc d r.portfolio r.cash port1 cash1 hs
  rw [hcash]
  have hsum : 0 ≤ (r.portfolio.map (fun e =>
      if 0 < e.2 then e.2 * priceValD data e.1 d * (1 - sc) else 0)).sum := by
    apply List.sum_nonneg
    intro x hx
    rcases List.mem_map.mp hx with ⟨e, _, rfl⟩
    exact sellTerm_nonneg data sc d hsc1.le hp e
  linarith [hinv.1]

theorem seriesOf_map_const (l : List Ticker) (s : Series) (t : Ticker) :
    seriesOf (l.map (fun x => (x, s))) t = s ∨ seriesOf (l.map (fun x => (x, s))) t = [] := by
  induction l with
  | nil => exact Or.inr rfl
  | cons x xs ih =>
    rw [List.map_cons]
    simp only [seriesOf]
    by_cases hx : x = t
    · rw [if_pos hx]; exact Or.inl rfl
    · rw [if_neg hx]; exact ih

theorem constSeries_cells : ∀ (c : Date) (v : Option ℚ),
    locRow constSeries c = .ok v → v = some 1 := by
  intro c v hv
  rw [constSeries] at hv
  simp only [locRow] at hv
  split_ifs at hv <;> simp_all

theorem cdata_price_pos : ∀ (t : Ticker) (d : Date) (p : ℚ),
    unitPriceAt cdata t d = .ok p → 0 < p := by
  intro t d p h
  have hs0 := seriesOf_map_const (attack_assets ++ safe_assets) constSeries t
  rw [show ((attack_assets ++ safe_assets).map fun x => (x, constSeries)) = cdata
    from rfl] at hs0
  rw [unitPriceAt] at h
  rcases hs0 with hs | hs
  · rw [hs] at h
    cases hcd : get_closest_date constSeries d with
    | none => rw [hcd] at h; simp [locCell] at h
    | some c =>
      rw [hcd] at h
      cases hlr : locRow constSeries c with
      | error err => simp [locCell, hlr] at h
      | ok v =>
        have hv : v = some 1 := constSeries_cells c v hlr
        subst hv
        simp only [locCell, hlr] at h
        obtain rfl : (1 : ℚ) = p := by simpa using h
        norm_num
  · rw [hs] at h
    simp [get_closest_date, dropnaDates, locCell] at h

theorem ev_sell_flat : sellPhase cdata 0 0 port0 2 = .ok (port0, 2) := by
  simp [sellPhase, port0, initPortfolio, attack_assets, safe_assets]

theorem ev_run3 : runSim subM cdata attack_assets safe_assets 0 0 2 [(0 : Date)]
    = .ok stR3 := by
  have hinit : initState (attack_assets ++ safe_assets) 2 = ⟨2, port0, [], []⟩ := by
    norm_num [initState, port0]
  have hb : buyPhase cdata 0 0 ("LQD") port0 2 = .ok (portL 2, 0) := by
    simp [buyPhase, unitPriceAt, seriesOf, locCell, locRow, get_closest_date, dropnaDates,
      modifyQty, cdata, constSeries, attack_assets, safe_assets, port0, portL, initPortfolio]
  have hhv : holdingsValue cdata 0 (portL 2) = .ok 2 := by
    simp [holdingsValue, unitPriceAt, seriesOf, locCell, locRow, get_closest_date,
      dropnaDates, cdata, constSeries, attack_assets, safe_assets, portL]
  have hstep : tradeStep subM cdata attack_assets safe_assets 0 0 2 0 ⟨2, port0, [], []⟩
      = .ok stR3 := by
    simp only [tradeStep, ev_scores, ev_choose, ev_sell_flat, hb, hhv, stR3]
    norm_num
  simp only [runSim, hinit, simSteps, hstep]

/-- Witness for C3 on a concrete zero-commission run. -/
theorem runSim_cash_nonneg_witness :
    0 ≤ stR3.cash ∧ (∀ rec ∈ stR3.trade_history, 0 ≤ rec.cash) ∧
    ∀ d port1 cash1, sellPhase cdata 0 d stR3.portfolio stR3.cash = .ok (port1, cash1) →
      0 ≤ cash1 :=
  runSim_cash_nonneg subM cdata attack_assets safe_assets 0 0 2 [0] stR3
    (by norm_num) (by norm_num) (by norm_num) (by norm_num) (by norm_num)
    cdata_price_pos ev_run3

theorem tradeStep_single {sub : Date → Nat → Date} {data : List (Ticker × Series)}
    {attack safe : List Ticker} {bc sc initial : ℚ} {d : Date} {st st' : SimState}
    (h : tradeStep sub data attack safe bc sc initial d st = .ok st') :
    AtMostOneHolder st'.portfolio ∧
    ∀ rec ∈ st'.trade_history, rec ∈ st.trade_history ∨ rec.portfolio = st'.portfolio := by
  obtain ⟨scores, best, strat, port1, cash1, port2, cash2, hv,
    h1, h2, h3, h4, h5, hst⟩ := tradeStep_ok_elim h
  obtain ⟨hs1, -, -⟩ := sellPhase_spec data sc d st.portfolio st.cash port1 cash1 h3
  have hport1 : ∀ e ∈ port1, e.2 ≤ 0 := by
    rw [hs1]
    intro e' he'
    rcases List.mem_map.mp he' with ⟨e, -, rfl⟩
    dsimp only
    by_cases hpos : 0 < e.2
    · rw [if_pos hpos]
    · rw [if_neg hpos]; exact not_lt.mp hpos
  have hpos2 : ∀ e ∈ port2, 0 < e.2 → e.1 = best := by
    rcases buyPhase_out h4 with ⟨hp2, -⟩ | ⟨p, -, hp2, -⟩
    · intro e he hpos
      exact absurd hpos (not_lt.mpr (hport1 e (hp2 ▸ he)))
    · intro e he hpos
      rcases mem_modifyQty e (hp2 ▸ he) with h' | ⟨e₀, -, -, rfl⟩
      · exact absurd hpos (not_lt.mpr (hport1 e h'))
      · rfl
  constructor
  · rw [hst]
    intro e₁ h₁ e₂ h₂ hp₁ hp₂
    rw [hpos2 e₁ h₁ hp₁, hpos2 e₂ h₂ hp₂]
  · rw [hst]
    intro rec hr
    rcases List.mem_append.mp hr with hin | hnew
    · exact Or.inl hin
    · right
      obtain rfl : rec = ⟨d, strat, best, cash2, cash2 + hv,
          ((cash2 + hv) / initial - 1) * 100, port2⟩ := by simpa using hnew
      rfl

theorem simSteps_single {sub : Date → Nat → Date} {data : List (Ticker × Series)}
    {attack safe : List Ticker} {bc sc initial : ℚ} :
    ∀ (ds : List Date) (st r : SimState),
      simSteps sub data attack safe bc sc initial st ds = .ok r →
      AtMostOneHolder st.portfolio →
      (∀ rec ∈ st.trade_history, AtMostOneHolder rec.portfolio) →
      AtMostOneHolder r.portfolio ∧
        ∀ rec ∈ r.trade_history, AtMostOneHolder rec.portfolio := by
  intro ds
  induction ds with
  | nil =>
    intro st r h h1 h2
    obtain rfl : st = r := by simpa [simSteps] using h
    exact ⟨h1, h2⟩
  | cons d ds ih =>
    intro st r h h1 h2
    rw [simSteps] at h
    cases hstep : tradeStep sub data attack safe bc sc initial d st with
    | error err => simp [hstep] at h
    | ok st1 =>
      simp only [hstep] at h
      obtain ⟨hs1, hs2⟩ := tradeStep_single hstep
      refine ih st1 r h hs1 ?_
      intro rec hr
      rcases hs2 rec hr with hin | hport
      · exact h2 rec hin
      · rw [hport]; exact hs1

/-- C4. At the end of every successful step (and so in every recorded
holdings snapshot, and in the final book) at most one ticker of the whole
universe has a positive holding: the strategy is fully rotated into a single
asset or entirely in cash. -/
theorem runSim_single_holding (sub : Date → Nat → Date) (data : List (Ticker × Series))
    (attack safe : List Ticker) (bc sc initial : ℚ) (ds : List Date) (r : SimState)
    (h : runSim sub data attack safe bc sc initial ds = .ok r) :
    AtMostOneHolder r.portfolio ∧
    ∀ rec ∈ r.trade_history, AtMostOneHolder rec.portfolio := by
  refine simSteps_single ds (initState (attack ++ safe) initial) r h ?_ ?_
  · intro e₁ h₁ e₂ h₂ hp₁ hp₂
    simp only [initState, initPortfolio] at h₁
    rcases List.mem_map.mp h₁ with ⟨t, -, rfl⟩
    norm_num at hp₁
  · simp [initState]

/-- Witness for C4 on the concrete one-step run: only LQD is held. -/
theorem runSim_single_holding_witness :
    AtMostOneHolder stR3.portfolio ∧
    ∀ rec ∈ stR3.trade_history, AtMostOneHolder rec.portfolio :=
  runSim_single_holding subM cdata attack_assets safe_assets 0 0 2 [0] stR3 ev_run3

theorem simSteps_append {sub : Date → Nat → Date} {data : List (Ticker × Series)}
    {attack safe : List Ticker} {bc sc initial : ℚ} :
    ∀ (ds₁ ds₂ : List Date) (st : SimState),
      simSteps sub data attack safe bc sc initial st (ds₁ ++ ds₂) =
        match simSteps sub data attack safe bc sc initial st ds₁ with
        | .error err => .error err
        | .ok st1 => simSteps sub data attack safe bc sc initial st1 ds₂ := by
  intro ds₁
  induction ds₁ with
  | nil => intro ds₂ st; simp [simSteps]
  | cons d ds ih =>
    intro ds₂ st
    rw [List.cons_append]
    simp only [simSteps]
    cases hstep : tradeStep sub data attack safe bc sc initial d st with
    | error err => rfl
    | ok st1 => exact ih ds₂ st1

theorem tradeStep_th {sub : Date → Nat → Date} {data : List (Ticker × Series)}
    {attack safe : List Ticker} {bc sc initial : ℚ} {d : Date} {st st' : SimState}
    (h : tradeStep sub data attack safe bc sc initial d st = .ok st') :
    ∃ rec : TradeRecord, st'.trade_history = st.trade_history ++ [rec] ∧
      st'.value_history = st.value_history ++ [rec.total_value] ∧
      rec.portfolio = st'.portfolio ∧ rec.cash = st'.cash := by
  obtain ⟨scores, best, strat, port1, cash1, port2, cash2, hv,
    h1, h2, h3, h4, h5, hst⟩ := tradeStep_ok_elim h
  exact ⟨⟨d, strat, best, cash2, cash2 + hv, ((cash2 + hv) / initial - 1) * 100, port2⟩,
    by rw [hst], by rw [hst], by rw [hst], by rw [hst]⟩

theorem simSteps_hist {sub : Date → Nat → Date} {data : List (Ticker × Series)}
    {attack safe : List Ticker} {bc sc initial : ℚ} :
    ∀ (ds : List Date) (st r : SimState),
      simSteps sub data attack safe bc sc initial st ds = .ok r →
      ∃ ext : List TradeRecord, r.trade_history = st.trade_history ++ ext ∧
        ext.length = ds.length := by
  intro ds
  induction ds with
  | nil =>
    intro st r h
    obtain rfl : st = r := by simpa [simSteps] using h
    exact ⟨[], by simp, rfl⟩
  | cons d ds ih =>
    intro st r h
    rw [simSteps] at h
    cases hstep : tradeStep sub data attack safe bc sc initial d st with
    | error err => simp [hstep] at h
    | ok st1 =>
      simp only [hstep] at h
      obtain ⟨rec, hth, -, -⟩ := tradeStep_th hstep
      obtain ⟨ext, he, hl⟩ := ih st1 r h
      refine ⟨rec :: ext, ?_, by simp [hl]⟩
      rw [he, hth, List.append_assoc]
      rfl

theorem simSteps_last {sub : Date → Nat → Date} {data : List (Ticker × Series)}
    {attack safe : List Ticker} {bc sc initial : ℚ} :
    ∀ (ds : List Date) (st r : SimState),
      simSteps sub data attack safe bc sc initial st ds = .ok r →
      (∀ rec, st.trade_history.getLast? = some rec →
        rec.portfolio = st.portfolio ∧ rec.cash = st.cash) →
      ∀ rec, r.trade_history.getLast? = some rec →
        rec.portfolio = r.portfolio ∧ rec.cash = r.cash := by
  intro ds
  induction ds with
  | nil =>
    intro st r h hlast
    obtain rfl : st = r := by simpa [simSteps] using h
    exact hlast
  | cons d ds ih =>
    intro st r h hlast
    rw [simSteps] at h
    cases hstep : tradeStep sub data attack safe bc sc initial d st with
    | error err => simp [hstep] at h
    | ok st1 =>
      simp only [hstep] at h
      obtain ⟨rec, hth, -, hport, hcash⟩ := tradeStep_th hstep
      refine ih st1 r h ?_
      intro rec' hr'
      rw [hth, List.getLast?_concat] at hr'
      obtain rfl : rec = rec' := by simpa using hr'
      exact ⟨hport, hcash⟩

theorem simSteps_vh {sub : Date → Nat → Date} {data : List (Ticker × Series)}
    {attack safe : List Ticker} {bc sc initial : ℚ} :
    ∀ (ds : List Date) (st r : SimState),
      simSteps sub data attack safe bc sc initial st ds = .ok r →
      st.value_history = st.trade_history.map TradeRecord.total_value →
      r.value_history = r.trade_history.map TradeRecord.total_value := by
  intro ds
  induction ds with
  | nil =>
    intro st r h hvh
    obtain rfl : st = r := by simpa [simSteps] using h
    exact hvh
  | cons d ds ih =>
    intro st r h hvh
    rw [simSteps] at h
    cases hstep : tradeStep sub data attack safe bc sc initial d st with
    | error err => simp [hstep] at h
    | ok st1 =>
      simp only [hstep] at h
      obtain ⟨rec, hth, hv, -, -⟩ := tradeStep_th hstep
      refine ih st1 r h ?_
      rw [hv, hth, hvh, List.map_append]
      rfl

/-- C10. History is append-only and snapshots are stable: extending a run by
further steps leaves the already-recorded prefix unchanged (one record per
step), and the last record of any run still carries exactly the ledger's
holdings and cash as they were at that point — later steps never rewrite it. -/
theorem runSim_history_stable (sub : Date → Nat → Date) (data : List (Ticker × Series))
    (attack safe : List Ticker) (bc sc initial : ℚ) (ds₁ ds₂ : List Date)
    (r₁ r₂ : SimState)
    (h₁ : runSim sub data attack safe bc sc initial ds₁ = .ok r₁)
    (h₂ : runSim sub data attack safe bc sc initial (ds₁ ++ ds₂) = .ok r₂) :
    r₁.trade_history.length = ds₁.length ∧
    r₂.trade_history.take ds₁.length = r₁.trade_history ∧
    ∀ rec, r₁.trade_history.getLast? = some rec →
      rec.portfolio = r₁.portfolio ∧ rec.cash = r₁.cash := by
  rw [runSim] at h₁ h₂
  have hlen : r₁.trade_history.length = ds₁.length := by
    obtain ⟨ext, he, hl⟩ :=
      simSteps_hist ds₁ (initState (attack ++ safe) initial) r₁ h₁
    rw [he]
    simp [initState, hl]
  have h₂' : simSteps sub data attack safe bc sc initial r₁ ds₂ = .ok r₂ := by
    rw [simSteps_append ds₁ ds₂ (initState (attack ++ safe) initial), h₁] at h₂
    exact h₂
  refine ⟨hlen, ?_, ?_⟩
  · obtain ⟨ext, he, -⟩ := simSteps_hist ds₂ r₁ r₂ h₂'
    rw [he, ← hlen, List.take_left]
  · exact simSteps_last ds₁ (initState (attack ++ safe) initial) r₁ h₁
      (by simp [initState])

theorem ev_step1 : tradeStep subM cdata attack_assets safe_assets 1 0 2 0 ⟨2, port0, [], []⟩
    = .ok stR1 := by
  have hb : buyPhase cdata 1 0 ("LQD") port0 2 = .ok (portL 1, 0) := by
    simp [buyPhase, unitPriceAt, seriesOf, locCell, locRow, get_closest_date, dropnaDates,
      modifyQty, cdata, constSeries, attack_assets, safe_assets, port0, portL, initPortfolio]
    norm_num
  have hhv : holdingsValue cdata 0 (portL 1) = .ok 1 := by
    simp [holdingsValue, unitPriceAt, seriesOf, locCell, locRow, get_closest_date,
      dropnaDates, cdata, constSeries, attack_assets, safe_assets, portL]
  simp only [tradeStep, ev_scores, ev_choose, ev_sell_flat, hb, hhv, stR1]
  norm_num

theorem ev_step2 : tradeStep subM cdata attack_assets safe_assets 1 0 2 0 stR1
    = .ok stR2 := by
  have hs : sellPhase cdata 0 0 (portL 1) 0 = .ok (portL 0, 1) := by
    simp [sellPhase, portL, unitPriceAt, seriesOf, locCell, locRow, get_closest_date,
      dropnaDates, cdata, constSeries, attack_assets, safe_assets]
  have hb : buyPhase cdata 1 0 ("LQD") (portL 0) 1 = .ok (portL 0, 1) := by
    simp [buyPhase, unitPriceAt, seriesOf, locCell, locRow, get_closest_date, dropnaDates,
      modifyQty, cdata, constSeries, attack_assets, safe_assets, portL]
    norm_num
  have hhv : holdingsValue cdata 0 (portL 0) = .ok 0 := by
    simp [holdingsValue, unitPriceAt, seriesOf, locCell, locRow, get_closest_date,
      dropnaDates, cdata, constSeries, attack_assets, safe_assets, portL]
  simp only [tradeStep, ev_scores, ev_choose, stR1, hs, hb, hhv, stR2]
  norm_num

theorem ev_run1 : runSim subM cdata attack_assets safe_assets 1 0 2 [(0 : Date)]
    = .ok stR1 := by
  have hinit : initState (attack_assets ++ safe_assets) 2 = ⟨2, port0, [], []⟩ := by
    norm_num [initState, port0]
  simp only [runSim, hinit, simSteps, ev_step1]

theorem ev_run2 : runSim subM cdata attack_assets safe_assets 1 0 2 [(0 : Date), 0]
    = .ok stR2 := by
  have hinit : initState (attack_assets ++ safe_assets) 2 = ⟨2, port0, [], []⟩ := by
    norm_num [initState, port0]
  simp only [runSim, hinit, simSteps, ev_step1, ev_step2]

/-- Witness for C10: extending the one-step run by a second step preserves
the first record, and the one-step run's record matches its final ledger. -/
theorem runSim_history_stable_witness :
    stR1.trade_history.length = [(0 : Date)].length ∧
    stR2.trade_history.take [(0 : Date)].length = stR1.trade_history ∧
    ∀ rec, stR1.trade_history.getLast? = some rec →
      rec.portfolio = stR1.portfolio ∧ rec.cash = stR1.cash :=
  runSim_history_stable subM cdata attack_assets safe_assets 1 0 2 [0] [0] stR1 stR2
    ev_run1 ev_run2

/-- C9 (amended). After the last scheduled date the simulator returns the
last recorded total value as the final value, and as annualized return the
percentage `((final/initial) ^ (12/num_steps) - 1) * 100` — i.e. 100 times
the fraction the claim states. -/
theorem simulate_trading_final_spec (sub : Date → Nat → Date)
    (data : List (Ticker × Series)) (attack safe : List Ticker)
    (bc sc initial : ℚ) (ds : List Date) (r : SimState) (fv : ℚ)
    (hds : ds ≠ []) (h : runSim sub data attack safe bc sc initial ds = .ok r)
    (hfv : final_value r = .ok fv) :
    simulate_trading sub data attack safe bc sc initial ds
      = .ok (fv, annual_return initial ds.length fv) ∧
    (∃ rec, r.trade_history.getLast? = some rec ∧ fv = rec.total_value) ∧
    annual_return initial ds.length fv
      = (((fv : ℝ) / (initial : ℝ)) ^ ((12 : ℝ) / (ds.length : ℝ)) - 1) * 100 := by
  refine ⟨?_, ?_, ?_⟩
  · rw [simulate_trading]
    simp only [h, hfv]
  · have hvh : r.value_history = r.trade_history.map TradeRecord.total_value :=
      @simSteps_vh sub data attack safe bc sc initial ds
        (initState (attack ++ safe) initial) r
        (by rw [runSim] at h; exact h) (by simp [initState])
    rw [final_value] at hfv
    cases hlast : r.value_history.getLast? with
    | none => rw [hlast] at hfv; exact absurd hfv (by simp)
    | some v =>
      rw [hlast] at hfv
      obtain rfl : v = fv := by simpa using hfv
      rw [hvh, List.getLast?_map] at hlast
      cases hrec : r.trade_history.getLast? with
      | none => rw [hrec] at hlast; exact absurd hlast (by simp)
      | some rec =>
        rw [hrec] at hlast
        refine ⟨rec, rfl, ?_⟩
        simpa using hlast.symm
  · rw [annual_return, one_div_div]

/-- Witness for C9's amended statement on the concrete one-step run. -/
theorem simulate_trading_final_spec_witness :
    simulate_trading subM cdata attack_assets safe_assets 1 0 2 [(0 : Date)]
      = .ok (1, annual_return 2 1 1) ∧
    (∃ rec, stR1.trade_history.getLast? = some rec ∧ 1 = rec.total_value) ∧
    annual_return 2 1 1
      = ((((1 : ℚ) : ℝ) / ((2 : ℚ) : ℝ)) ^ ((12 : ℝ) / ((1 : ℕ) : ℝ)) - 1) * 100 :=
  simulate_trading_final_spec subM cdata attack_assets safe_assets 1 0 2 [0] stR1 1
    (by simp) ev_run1 (by simp [final_value, stR1])

/-- C9 counterexample: at a concrete one-step run (final value 1, initial
cash 2, one step) the returned annualized figure is 100 times the fraction
`(final/initial) ^ (12/num_steps) - 1` the claim states, hence differs. -/
theorem annual_return_percent_cex :
    (runSim subM cdata attack_assets safe_assets 1 0 2 [(0 : Date)]).bind final_value
      = .ok 1 ∧
    annual_return 2 1 1 ≠ ((1 : ℝ) / 2) ^ ((12 : ℝ) / 1) - 1 := by
  constructor
  · rw [ev_run1]
    simp [Except.bind, final_value, stR1]
  · have hpow : ((1 : ℝ) / 2) ^ (12 : ℝ) = 1 / 4096 := by
      rw [show (12 : ℝ) = ((12 : ℕ) : ℝ) by norm_num, Real.rpow_natCast]
      norm_num
    rw [annual_return]
    rw [show ((1 : ℚ) : ℝ) = (1 : ℝ) by norm_num,
      show ((2 : ℚ) : ℝ) = (2 : ℝ) by norm_num,
      show (1 : ℝ) / (((1 : ℕ) : ℝ) / 12) = (12 : ℝ) by norm_num,
      show (12 : ℝ) / 1 = (12 : ℝ) by norm_num, hpow]
    norm_num

/-- C6. Evaluating the scorer at the failing input: EFA's history starts six
months before the evaluation date, so the 12-month-prior resolution finds no
observation on or before its target (`Index.asof` yields `NaT`), the price
lookup raises, and the scorer — and with it the whole run — aborts with an
error instead of assigning the `-inf` sentinel and continuing, contradicting
the code's own stated intent of scoring insufficient history very low. -/
theorem momentum_missing_history_aborts :
    calculate_momentum_scores subM ldata 0 = .error () ∧
    runSim subM ldata attack_assets safe_assets 0 0 1000000 [(0 : Date)] = .error () := by
  have hl : calculate_momentum_scores subM ldata 0 = .error () := by
    simp [calculate_momentum_scores, tickerScore, get_closest_date, dropnaDates, locCell,
      locRow, momentumFormula, subM, ldata, constSeries, lateSeries,
      List.filter, List.max?]
  refine ⟨hl, ?_⟩
  rw [runSim]
  simp only [simSteps, tradeStep, hl]

end StockSimul
